import Mathlib

/-!
# Verification of the batch job execution engine of `app.py`

This file shallowly embeds the core of the repository's batch download
engine (`src/app.py`: `run_job`, `api_download`, `api_job`,
`normalize_channel_url`, `download_one`) and proves or refutes the frozen
claims about it.

Conventions of the embedding:
* Python strings holding URLs are `List Char`, so that `strip`, `lower`,
  `startswith`, substring containment and `rstrip` are ordinary list
  operations.
* The status strings `"pending"`, `"running"`, `"done"`, `"error"` become
  the inductive `Status`.
* The external `yt_dlp` call inside `download_one` is abstracted by its
  observable behaviour: either it returns normally (`Except.ok ()`) or it
  raises an exception with a message (`Except.error msg`).
* The concurrent execution of `run_job` is modelled as a sequence of atomic
  state updates (a schedule): the submission loop marks items in order, the
  `as_completed` loop applies outcomes in an arbitrary permutation order,
  and the final status write comes last; environment events that delete the
  job from the registry may interleave anywhere.  This matches the source:
  all mutations by `run_job` itself happen on the single background thread
  in exactly that order, worker threads only compute outcomes.
-/

namespace YtApp

/-- Item/job status; the source uses the strings
`"pending" | "running" | "done" | "error"`. -/
inductive Status where
  | pending
  | running
  | done
  | error
deriving DecidableEq, Repr

/-- Terminal statuses, per the spec glossary: `done` or `error`. -/
def Status.isTerminal : Status → Bool
  | .done => true
  | .error => true
  | _ => false

/-- Progress rank of a status along `pending → running → {done, error}`. -/
def Status.rank : Status → Nat
  | .pending => 0
  | .running => 1
  | .done => 2
  | .error => 2

/-- One entry of `job["items"]`: `{"url": u, "status": s, "message": m}`
(app.py line 145). -/
structure Item where
  url : List Char
  status : Status
  message : List Char
deriving DecidableEq, Repr

/-- One entry of the `jobs` registry:
`{"id": job_id, "status": s, "items": [...], "workers": w}`
(app.py lines 203-208). -/
structure Job where
  id : String
  status : Status
  items : List Item
  workers : Int
deriving DecidableEq, Repr

/-! ## Python string primitives used by the source -/

/-- Python whitespace for `str.strip()` (ASCII part). -/
def isPySpace (c : Char) : Bool :=
  c == ' ' || c == '\t' || c == '\n' || c == '\r' || c == '\x0b' || c == '\x0c'

/-- `s.lstrip()`. -/
def pyLStrip (s : List Char) : List Char := s.dropWhile isPySpace

/-- `s.rstrip()`. -/
def pyRStrip (s : List Char) : List Char :=
  (s.reverse.dropWhile isPySpace).reverse

/-- `s.strip()`. -/
def pyStrip (s : List Char) : List Char := pyRStrip (pyLStrip s)

/-- `s.rstrip("/")`. -/
def rstripSlash (s : List Char) : List Char :=
  (s.reverse.dropWhile (· == '/')).reverse

/-- `s.lower()` (ASCII case folding, as used on URLs). -/
def pyLower (s : List Char) : List Char := s.map Char.toLower

/-- `s.startswith(p)`. -/
def pyStartsWith (s p : List Char) : Bool := p.isPrefixOf s

/-- `p in s` (substring containment). -/
def pyContains (s p : List Char) : Bool :=
  match s with
  | [] => p.isEmpty
  | _ :: tl => p.isPrefixOf s || pyContains tl p

/-! ## `download_one` (app.py lines 131-138)

The inner function builds options and calls `YoutubeDL(...).download([u])`;
we abstract that call by its behaviour `res`: normal return or a raised
exception carrying a message. -/

/-- `download_one` catches any exception of the fetch call and converts it
into an `("error", str(exc))` outcome; a normal return yields `("done", "")`. -/
def download_one (res : Except (List Char) Unit) : Status × List Char :=
  match res with
  | .ok _ => (Status.done, [])
  | .error exc => (Status.error, exc)

/-! ## Worker count clamping (app.py lines 194-198)

```
workers = data.get("workers", DEFAULT_WORKERS)
try:
    workers = max(1, min(int(workers), MAX_WORKERS))
except Exception:
    workers = DEFAULT_WORKERS
```
The JSON field is either absent (so the default is used), an integral
value, or a value `int()` cannot convert (raising, so the `except` arm
assigns the default). -/

def DEFAULT_WORKERS : Int := 4

def MAX_WORKERS : Int := 8

/-- The caller-supplied `workers` JSON field, by how `int()` treats it. -/
inductive WorkersVal where
  | absent
  | num (z : Int)
  | invalid
deriving DecidableEq, Repr

/-- Effective worker count computed by `api_download`. -/
def effectiveWorkers : WorkersVal → Int
  | .absent => max 1 (min DEFAULT_WORKERS MAX_WORKERS)
  | .num z => max 1 (min z MAX_WORKERS)
  | .invalid => DEFAULT_WORKERS

/-! ## `normalize_channel_url` (app.py lines 66-80; identical logic in
youtube_downloader.py lines 72-87) -/

/-- The list-tag substrings of line 76. -/
def channelTags : List (List Char) :=
  ["/videos".toList, "/streams".toList, "/shorts".toList, "/playlist".toList,
   "/watch".toList, "list=".toList]

/-- The channel-key substrings of line 78. -/
def channelKeys : List (List Char) :=
  ["/channel/".toList, "/user/".toList, "/c/".toList, "/@".toList]

/-- Lines 71-74: prepend the scheme for handle-style and scheme-less
addresses. -/
def addScheme (url : List Char) : List Char :=
  let url := if pyStartsWith url "@".toList then
      "https://www.youtube.com/".toList ++ url else url
  if pyStartsWith url "youtube.com/".toList then "https://".toList ++ url else url

/-- Lines 75-80: keep a URL that already points to a list, append `/videos`
to a channel-shaped URL, pass anything else through. -/
def routeUrl (url : List Char) : List Char :=
  let lower := rstripSlash (pyLower url)
  if channelTags.any (fun t => pyContains lower t) then url
  else if channelKeys.any (fun k => pyContains lower k) then
    rstripSlash url ++ "/videos".toList
  else url

/-- `normalize_channel_url`: ensure a channel URL points to a list of real
videos. -/
def normalize_channel_url (url0 : List Char) : List Char :=
  let url := pyStrip url0
  if url.isEmpty then url
  else routeUrl (addScheme url)

/-! ## The job registry and `run_job` (app.py lines 130-165)

`run_job` runs on one background thread.  Its own mutations of shared state
occur in program order: the initial lookup-and-populate block, then the
submission loop (marking each item `running` in index order), then the
`as_completed` loop (applying one `(status, message)` outcome per index, in
an arbitrary completion order), then the final job-status write.  Worker
threads only compute outcomes, they do not touch the job.  The environment
may delete the job from the registry at any point in between; once the id
is gone, it never reappears (ids are fresh UUIDs).  A run is therefore the
left fold of atomic events over a state `(registered?, job dict)`. -/

/-- `{"url": u, "status": "pending", "message": ""}` (line 145). -/
def mkPendingItem (u : List Char) : Item :=
  { url := u, status := Status.pending, message := [] }

/-- The state seen by one `run_job` invocation: whether `job_id` is still a
key of `jobs`, and the job dict itself (which the run keeps mutating through
its local alias even if the registry entry was deleted). -/
structure RunState where
  registered : Bool
  job : Job
deriving DecidableEq, Repr

/-- Atomic events of a run: the submission-loop write for item `i`
(line 150), the outcome application for item `i` (lines 156-161), the final
status write (lines 163-165), and an environment deletion of the job id. -/
inductive Ev where
  | submit (i : Nat)
  | deliver (i : Nat)
  | finalize
  | remove
deriving DecidableEq, Repr

/-- Update the element at position `i` (no-op when out of range), like an
in-place mutation of one Python list entry. -/
def updateAt : List α → Nat → (α → α) → List α
  | [], _, _ => []
  | a :: as, 0, f => f a :: as
  | a :: as, Nat.succ i, f => a :: updateAt as i f

/-- Line 165: `"done" if all(i["status"] == "done" for i in job["items"])
else "error"`. -/
def jobFinalStatus (items : List Item) : Status :=
  if items.all (fun it => it.status == Status.done) then Status.done else Status.error

/-- Lines 160-161: write one task outcome into item `i`. -/
def applyOutcome (out : Nat → Status × List Char) (i : Nat) (it : Item) : Item :=
  { it with status := (out i).1, message := (out i).2 }

/-- One atomic event.  `deliver` and `finalize` first check
`job_id in jobs` (lines 157, 164) and silently skip when the job is gone;
the submission-loop write (line 150) has no such guard. -/
def step (out : Nat → Status × List Char) (s : RunState) : Ev → RunState
  | .submit i =>
      { s with job := { s.job with
          items := updateAt s.job.items i (fun it => { it with status := Status.running }) } }
  | .deliver i =>
      if s.registered then
        { s with job := { s.job with items := updateAt s.job.items i (applyOutcome out i) } }
      else s
  | .finalize =>
      if s.registered then
        { s with job := { s.job with status := jobFinalStatus s.job.items } }
      else s
  | .remove => { s with registered := false }

/-- Run a sequence of events. -/
def runTrace (out : Nat → Status × List Char) (s0 : RunState) (evs : List Ev) : RunState :=
  evs.foldl (step out) s0

/-- Lines 140-145: the initial block of `run_job`, assuming the job was
found: set `status = "running"` and populate `items` in submission order. -/
def initRun (job0 : Job) (urls : List (List Char)) : RunState :=
  { registered := true
    job := { job0 with status := Status.running, items := urls.map mkPendingItem } }

/-- The events `run_job` itself performs, in their program order: submits in
index order, deliveries in completion order `σ`, then the final write. -/
def runEvents (σ : List Nat) (n : Nat) : List Ev :=
  (List.range n).map Ev.submit ++ σ.map Ev.deliver ++ [Ev.finalize]

/-- A whole `run_job` invocation: if the id is absent at the initial lookup
(lines 140-143) the function returns at once and changes nothing; otherwise
it initialises the job and executes the event sequence `evs`. -/
def run_job (out : Nat → Status × List Char) (registered0 : Bool) (job0 : Job)
    (urls : List (List Char)) (evs : List Ev) : RunState :=
  if registered0 then runTrace out (initRun job0 urls) evs
  else { registered := false, job := job0 }

/-! ## `api_download` (app.py lines 188-213) and `api_job` (216-222) -/

/-- The in-memory `jobs` dict, as an association list keyed by job id. -/
def Registry := List (String × Job)

/-- `jobs.get(job_id)`. -/
def findJob (reg : Registry) (jobId : String) : Option Job :=
  (List.find? (fun p => p.1 == jobId) reg).map (fun p => p.2)

/-- Line 191: `[u.strip() for u in data.get("urls", []) if u and u.strip()]`. -/
def trimUrls (urls : List (List Char)) : List (List Char) :=
  (urls.filter (fun u => !u.isEmpty && !(pyStrip u).isEmpty)).map pyStrip

/-- The body a create-job request may carry. -/
structure DownloadRequest where
  urls : List (List Char)
  mode : String
  fmt : String
  workers : WorkersVal

/-- Response of `api_download`: a 400 validation error or a fresh job id. -/
inductive DownloadResp where
  | err (msg : String)
  | jobId (id : String)
deriving DecidableEq, Repr

/-- `api_download`: trim the url list, clamp the worker count, reject an
empty list with a 400 before any id is issued, otherwise register a fresh
pending job (the background thread is started with these urls and workers). -/
def api_download (reg : Registry) (req : DownloadRequest) (freshId : String) :
    Registry × DownloadResp :=
  let urls := trimUrls req.urls
  let workers := effectiveWorkers req.workers
  if urls.isEmpty then (reg, DownloadResp.err "No URLs provided")
  else
    ((freshId, { id := freshId, status := Status.pending, items := [], workers := workers }) :: reg,
     DownloadResp.jobId freshId)

/-- `api_job`: look the job up; `none` is rendered as the 404
`{"error": "Job not found"}`, `some job` as the JSON snapshot. -/
def api_job (reg : Registry) (jobId : String) : Option Job :=
  findJob reg jobId

/-! ## The locking discipline (C8)

The shared mutable state is the `jobs` dict and each job's/item's mutable
fields; the only mutual-exclusion device in the source is the single
`jobs_lock` (line 62).  Each syntactic access to the shared state in
`run_job`, `api_download` and `api_job` is listed below with whether the
source performs it inside a `with jobs_lock:` block.  This is a static
model: the claim that every access is serialized is exactly the claim that
every listed access is under the lock. -/

/-- Whether an access reads or writes shared state. -/
inductive AccessKind where
  | read
  | write
deriving DecidableEq, Repr

/-- The syntactic shared-state access sites of the core. -/
inductive SiteId where
  | lookupJobStart      -- line 141: `jobs.get(job_id)`
  | writeStatusRunning  -- line 144: `job["status"] = "running"`
  | writeItemsPopulate  -- line 145: `job["items"] = [...]`
  | readItemsSubmit     -- line 149: `enumerate(job["items"])`
  | writeItemRunning    -- line 150: `item["status"] = "running"`
  | readRegistryDeliver -- line 157: `job_id not in jobs`
  | writeItemOutcome    -- lines 160-161: item status/message writes
  | readRegistryFinal   -- line 164: `job_id in jobs`
  | writeJobFinal       -- line 165: final `job["status"]` write
  | writeRegistryInsert -- line 203: `jobs[job_id] = {...}`
  | readRegistryGet     -- line 219: `jobs.get(job_id)` in `api_job`
  | readJobSerialize    -- line 222: `jsonify(job)` reads the snapshot
deriving DecidableEq, Repr

/-- One shared-state access: its site, read/write, and whether the source
performs it while holding `jobs_lock`. -/
structure SharedAccess where
  site : SiteId
  kind : AccessKind
  underLock : Bool
deriving DecidableEq, Repr

/-- The accesses of `run_job`, in program order.  Lines 140-145 are inside
`with jobs_lock:`; the submission loop (149-151) is not; the
`as_completed` body (156-161) and the final block (163-165) are. -/
def run_job_accesses : List SharedAccess :=
  [⟨SiteId.lookupJobStart, AccessKind.read, true⟩,
   ⟨SiteId.writeStatusRunning, AccessKind.write, true⟩,
   ⟨SiteId.writeItemsPopulate, AccessKind.write, true⟩,
   ⟨SiteId.readItemsSubmit, AccessKind.read, false⟩,
   ⟨SiteId.writeItemRunning, AccessKind.write, false⟩,
   ⟨SiteId.readRegistryDeliver, AccessKind.read, true⟩,
   ⟨SiteId.writeItemOutcome, AccessKind.write, true⟩,
   ⟨SiteId.readRegistryFinal, AccessKind.read, true⟩,
   ⟨SiteId.writeJobFinal, AccessKind.write, true⟩]

/-- The accesses of `api_download` (the registry insert at line 203 is
inside `with jobs_lock:`). -/
def api_download_accesses : List SharedAccess :=
  [⟨SiteId.writeRegistryInsert, AccessKind.write, true⟩]

/-- The accesses of `api_job`: the lookup (line 219) is inside
`with jobs_lock:`, but the lock is released before `jsonify(job)` walks the
job's mutable fields at line 222. -/
def api_job_accesses : List SharedAccess :=
  [⟨SiteId.readRegistryGet, AccessKind.read, true⟩,
   ⟨SiteId.readJobSerialize, AccessKind.read, false⟩]

/-- Every shared-state access of the core. -/
def all_shared_accesses : List SharedAccess :=
  run_job_accesses ++ api_download_accesses ++ api_job_accesses

/-! ## Helper lemmas about the embedding -/

theorem updateAt_length (l : List α) (i : Nat) (f : α → α) :
    (updateAt l i f).length = l.length := by
  induction l generalizing i with
  | nil => rfl
  | cons a as ih =>
    cases i with
    | zero => rfl
    | succ i => simpa [updateAt] using ih i

theorem updateAt_getElem? (l : List α) (i j : Nat) (f : α → α) :
    (updateAt l i f)[j]? = if j = i then (l[j]?).map f else l[j]? := by
  induction l generalizing i j with
  | nil => simp [updateAt]
  | cons a as ih =>
    cases i with
    | zero =>
      cases j with
      | zero => simp [updateAt]
      | succ j => simp [updateAt]
    | succ i =>
      cases j with
      | zero => simp [updateAt]
      | succ j => simpa [updateAt] using ih i j

theorem runTrace_append (out : Nat → Status × List Char) (s0 : RunState)
    (p q : List Ev) :
    runTrace out s0 (p ++ q) = runTrace out (runTrace out s0 p) q :=
  List.foldl_append _ _ _ _

/-- A single step never changes the job id, the worker count, or the number
of items. -/
theorem step_preserves (out : Nat → Status × List Char) (s : RunState) (e : Ev) :
    (step out s e).job.id = s.job.id ∧ (step out s e).job.workers = s.job.workers ∧
    (step out s e).job.items.length = s.job.items.length := by
  cases e with
  | submit i => simp [step, updateAt_length]
  | deliver i =>
    by_cases h : s.registered <;> simp [step, h, updateAt_length]
  | finalize =>
    by_cases h : s.registered <;> simp [step, h]
  | remove => simp [step]

theorem runTrace_preserves (out : Nat → Status × List Char) (s0 : RunState)
    (p : List Ev) :
    (runTrace out s0 p).job.id = s0.job.id ∧
    (runTrace out s0 p).job.workers = s0.job.workers ∧
    (runTrace out s0 p).job.items.length = s0.job.items.length := by
  induction p generalizing s0 with
  | nil => exact ⟨rfl, rfl, rfl⟩
  | cons e p ih =>
    have hs := step_preserves out s0 e
    have ht := ih (step out s0 e)
    exact ⟨ht.1.trans hs.1, ht.2.1.trans hs.2.1, ht.2.2.trans hs.2.2⟩

/-- The registered flag after a trace: still set iff it was set initially and
no removal event occurred. -/
theorem runTrace_registered (out : Nat → Status × List Char) (s0 : RunState)
    (p : List Ev) :
    ((runTrace out s0 p).registered = true) ↔
      (s0.registered = true ∧ Ev.remove ∉ p) := by
  induction p generalizing s0 with
  | nil => simp [runTrace]
  | cons e p ih =>
    have hstep : (step out s0 e).registered = true ↔
        (s0.registered = true ∧ e ≠ Ev.remove) := by
      cases e with
      | submit i => simp [step]
      | deliver i => by_cases h : s0.registered <;> simp [step, h]
      | finalize => by_cases h : s0.registered <;> simp [step, h]
      | remove => simp [step]
    have := ih (step out s0 e)
    rw [runTrace] at this ⊢
    rw [List.foldl_cons, this, hstep]
    constructor
    · rintro ⟨⟨h1, h2⟩, h3⟩
      refine ⟨h1, ?_⟩
      simp only [List.mem_cons, not_or]
      exact ⟨fun hh => h2 hh.symm, h3⟩
    · rintro ⟨h1, h2⟩
      simp only [List.mem_cons, not_or] at h2
      exact ⟨⟨h1, fun hh => h2.1 hh.symm⟩, h2.2⟩

/-- Events other than `remove`. -/
def nonRemove : Ev → Bool
  | Ev.remove => false
  | _ => true

theorem takeWhile_prefix_filter (q : α → Bool) (l : List α) :
    l.takeWhile q <+: l.filter q := by
  conv_rhs => rw [← List.takeWhile_append_dropWhile q l]
  rw [List.filter_append, List.filter_eq_self.mpr (fun a ha => List.mem_takeWhile_imp ha)]
  exact List.prefix_append _ _

theorem takeWhile_append_of_not_all {q : α → Bool} {l₁ : List α} (l₂ : List α)
    (h : ∃ a ∈ l₁, q a = false) :
    (l₁ ++ l₂).takeWhile q = l₁.takeWhile q := by
  rw [List.takeWhile_append]
  obtain ⟨a, ha, hqa⟩ := h
  have : (l₁.takeWhile q).length ≠ l₁.length := by
    intro hlen
    have : l₁.takeWhile q = l₁ :=
      List.IsPrefix.eq_of_length (List.takeWhile_prefix q) hlen
    have := List.mem_takeWhile_imp (this ▸ ha)
    simp [hqa] at this
  simp [this]

theorem takeWhile_append_of_all {q : α → Bool} {l₁ : List α} (l₂ : List α)
    (h : ∀ a ∈ l₁, q a = true) :
    (l₁ ++ l₂).takeWhile q = l₁ ++ l₂.takeWhile q := by
  rw [List.takeWhile_append]
  have : l₁.takeWhile q = l₁ := List.takeWhile_eq_self_iff.mpr h
  simp [this]

theorem prefix_append_cases {l a b : List α} (h : l <+: a ++ b) :
    l <+: a ∨ ∃ r, l = a ++ r ∧ r <+: b := by
  rcases Nat.le_total l.length a.length with hle | hle
  · exact Or.inl (List.prefix_of_prefix_length_le h (List.prefix_append a b) hle)
  · right
    have ha : a <+: l := List.prefix_of_prefix_length_le (List.prefix_append a b) h hle
    obtain ⟨r, hr⟩ := ha
    refine ⟨r, hr.symm, ?_⟩
    obtain ⟨t, ht⟩ := h
    rw [← hr, List.append_assoc] at ht
    exact ⟨t, List.append_cancel_left ht⟩

theorem prefix_map_iff {f : α → β} {M : List α} {L : List β} (h : L <+: M.map f) :
    ∃ M', M' <+: M ∧ L = M'.map f := by
  obtain ⟨k, hk⟩ : ∃ k, L = (M.map f).take k := ⟨L.length, List.prefix_iff_eq_take.mp h⟩
  exact ⟨M.take k, List.take_prefix k M, by rw [hk, List.map_take]⟩

theorem prefix_singleton_cases {l : List α} {x : α} (h : l <+: [x]) :
    l = [] ∨ l = [x] := by
  obtain ⟨t, ht⟩ := h
  cases l with
  | nil => exact Or.inl rfl
  | cons a as =>
    rw [List.cons_append] at ht
    have h1 : a = x := (List.cons.injEq _ _ _ _ ▸ ht).1
    have h2 : as ++ t = [] := (List.cons.injEq _ _ _ _ ▸ ht).2
    have : as = [] := List.append_eq_nil.mp h2 |>.1
    exact Or.inr (by rw [h1, this])

/-- Shapes of a prefix of `runEvents σ n`: a prefix of the submission phase,
the whole submission phase followed by a prefix of the delivery phase, or
the whole event list. -/
theorem prefix_runEvents_shape {σ : List Nat} {n : Nat} {L : List Ev}
    (h : L <+: runEvents σ n) :
    (∃ k, k ≤ n ∧ L = (List.range k).map Ev.submit)
    ∨ (∃ τ, τ <+: σ ∧ L = (List.range n).map Ev.submit ++ τ.map Ev.deliver)
    ∨ L = runEvents σ n := by
  rw [runEvents] at h
  rcases prefix_append_cases h with h1 | ⟨r, hr, hfin⟩
  · rcases prefix_append_cases h1 with h2 | ⟨r', hr', hdel⟩
    · obtain ⟨M', hM', hL⟩ := prefix_map_iff h2
      obtain ⟨k, hk⟩ : ∃ k, M' = (List.range n).take k :=
        ⟨M'.length, List.prefix_iff_eq_take.mp hM'⟩
      refine Or.inl ⟨min k n, Nat.min_le_right _ _, ?_⟩
      rw [hL, hk, List.take_range]
    · obtain ⟨τ, hτ, hLr⟩ := prefix_map_iff hdel
      exact Or.inr (Or.inl ⟨τ, hτ, by rw [hr', hLr]⟩)
  · rcases prefix_singleton_cases hfin with h3 | h3
    · subst h3
      exact Or.inr (Or.inl ⟨σ, List.prefix_refl σ, by rw [hr]; simp⟩)
    · subst h3
      exact Or.inr (Or.inr (by rw [hr, runEvents]))

/-- A prefix of `runEvents` ending in `submit j` consists exactly of the
first `j + 1` submission events. -/
theorem concat_prefix_submit {σ : List Nat} {n : Nat} {F : List Ev} {j : Nat}
    (h : F ++ [Ev.submit j] <+: runEvents σ n) :
    j < n ∧ F = (List.range j).map Ev.submit := by
  rcases prefix_runEvents_shape h with ⟨k, hk, hL⟩ | ⟨τ, hτ, hL⟩ | hL
  · cases k with
    | zero => simp at hL
    | succ m =>
      rw [List.range_succ, List.map_append] at hL
      have := List.append_inj' hL.symm rfl
      have hjm : j = m := by
        have := this.2
        simp only [List.map_cons, List.map_nil, List.cons.injEq] at this
        exact (Ev.submit.injEq _ _ ▸ this.1.symm)
      subst hjm
      exact ⟨Nat.lt_of_lt_of_le (Nat.lt_succ_self j) hk, this.1.symm⟩
  · induction τ using List.reverseRecOn with
    | nil =>
      simp only [List.map_nil, List.append_nil] at hL
      cases n with
      | zero => simp at hL
      | succ m =>
        rw [List.range_succ, List.map_append] at hL
        have := List.append_inj' hL rfl
        have hjm : j = m := by
          have := this.2
          simp only [List.map_cons, List.map_nil, List.cons.injEq] at this
          exact (Ev.submit.injEq _ _ ▸ this.1)
        subst hjm
        exact ⟨Nat.lt_succ_self j, this.1⟩
    | append_singleton τ' t _ =>
      rw [List.map_append, ← List.append_assoc] at hL
      have := (List.append_inj' hL rfl).2
      simp at this
  · rw [runEvents] at hL
    have := (List.append_inj' hL rfl).2
    simp at this

/-- A prefix of `runEvents` ending in `deliver j` consists of all submission
events followed by the deliveries of some `τ` with `τ ++ [j]` a prefix
of `σ`. -/
theorem concat_prefix_deliver {σ : List Nat} {n : Nat} {F : List Ev} {j : Nat}
    (h : F ++ [Ev.deliver j] <+: runEvents σ n) :
    ∃ τ, τ ++ [j] <+: σ ∧ F = (List.range n).map Ev.submit ++ τ.map Ev.deliver := by
  rcases prefix_runEvents_shape h with ⟨k, hk, hL⟩ | ⟨τ, hτ, hL⟩ | hL
  · cases k with
    | zero => simp at hL
    | succ m =>
      rw [List.range_succ, List.map_append] at hL
      have := (List.append_inj' hL.symm rfl).2
      simp at this
  · induction τ using List.reverseRecOn with
    | nil =>
      simp only [List.map_nil, List.append_nil] at hL
      cases n with
      | zero => simp at hL
      | succ m =>
        rw [List.range_succ, List.map_append] at hL
        have := (List.append_inj' hL rfl).2
        simp at this
    | append_singleton τ' t _ =>
      rw [List.map_append, ← List.append_assoc] at hL
      have := List.append_inj' hL rfl
      have htj : t = j := by
        have := this.2
        simp only [List.map_cons, List.map_nil, List.cons.injEq] at this
        exact (Ev.deliver.injEq _ _ ▸ this.1.symm)
      subst htj
      exact ⟨τ', hτ, this.1⟩
  · rw [runEvents] at hL
    have := (List.append_inj' hL rfl).2
    simp at this

/-- A prefix of `runEvents` ending in `finalize` is the whole event list:
all submissions and all deliveries precede it. -/
theorem concat_prefix_finalize {σ : List Nat} {n : Nat} {F : List Ev}
    (h : F ++ [Ev.finalize] <+: runEvents σ n) :
    F = (List.range n).map Ev.submit ++ σ.map Ev.deliver := by
  rcases prefix_runEvents_shape h with ⟨k, hk, hL⟩ | ⟨τ, hτ, hL⟩ | hL
  · cases k with
    | zero => simp at hL
    | succ m =>
      rw [List.range_succ, List.map_append] at hL
      have := (List.append_inj' hL.symm rfl).2
      simp at this
  · induction τ using List.reverseRecOn with
    | nil =>
      simp only [List.map_nil, List.append_nil] at hL
      cases n with
      | zero => simp at hL
      | succ m =>
        rw [List.range_succ, List.map_append] at hL
        have := (List.append_inj' hL rfl).2
        simp at this
    | append_singleton τ' t _ =>
      rw [List.map_append, ← List.append_assoc] at hL
      have := (List.append_inj' hL rfl).2
      simp at this
  · rw [runEvents] at hL
    exact (List.append_inj' hL rfl).1

/-- The item carrying the task outcome for index `k` (lines 159-161 write
exactly these fields). -/
def outcomeItem (out : Nat → Status × List Char) (u : List Char) (k : Nat) : Item :=
  { url := u, status := (out k).1, message := (out k).2 }

/-- The item a poller sees at index `k` after the event prefix `p`: the
delivered outcome if the delivery for `k` happened while the job was still
registered, else `running` once submitted, else `pending`. -/
def expectedItem (out : Nat → Status × List Char) (u : List Char) (p : List Ev) (k : Nat) :
    Item :=
  if Ev.deliver k ∈ p.takeWhile nonRemove then outcomeItem out u k
  else if Ev.submit k ∈ p then { url := u, status := Status.running, message := [] }
  else mkPendingItem u

/-- The fully delivered item list. -/
def finalItems (out : Nat → Status × List Char) (urls : List (List Char)) : List Item :=
  urls.mapIdx fun i u => outcomeItem out u i

theorem runTrace_concat (out : Nat → Status × List Char) (s0 : RunState)
    (p : List Ev) (e : Ev) :
    runTrace out s0 (p ++ [e]) = step out (runTrace out s0 p) e := by
  rw [runTrace_append]; rfl

theorem nonRemove_eq_true {e : Ev} (h : e ≠ Ev.remove) : nonRemove e = true := by
  cases e with
  | remove => exact absurd rfl h
  | submit i => rfl
  | deliver i => rfl
  | finalize => rfl

theorem filter_nonRemove_concat {p : List Ev} {e : Ev} (h : e ≠ Ev.remove) :
    (p ++ [e]).filter nonRemove = p.filter nonRemove ++ [e] := by
  rw [List.filter_append, List.filter_cons, nonRemove_eq_true h]
  simp

theorem filter_nonRemove_concat_remove (p : List Ev) :
    (p ++ [Ev.remove]).filter nonRemove = p.filter nonRemove := by
  rw [List.filter_append]
  simp [List.filter_cons, nonRemove]

theorem takeWhile_nonRemove_eq_self {p : List Ev} (h : Ev.remove ∉ p) :
    p.takeWhile nonRemove = p := by
  refine List.takeWhile_eq_self_iff.mpr (fun e he => ?_)
  exact nonRemove_eq_true (fun hh => h (hh ▸ he))

theorem takeWhile_nonRemove_append_of_mem {p : List Ev} (q : List Ev)
    (h : Ev.remove ∈ p) :
    (p ++ q).takeWhile nonRemove = p.takeWhile nonRemove :=
  takeWhile_append_of_not_all q ⟨Ev.remove, h, rfl⟩

theorem not_submit_mem_map_deliver (τ : List Nat) (k : Nat) :
    Ev.submit k ∉ τ.map Ev.deliver := by
  simp

theorem not_deliver_mem_map_submit (τ : List Nat) (k : Nat) :
    Ev.deliver k ∉ τ.map Ev.submit := by
  simp

theorem not_finalize_mem_map_submit (τ : List Nat) :
    Ev.finalize ∉ τ.map Ev.submit := by
  simp

theorem not_finalize_mem_map_deliver (τ : List Nat) :
    Ev.finalize ∉ τ.map Ev.deliver := by
  simp


theorem applyOutcome_expectedItem (out : Nat → Status × List Char) (u : List Char)
    (p : List Ev) (k : Nat) :
    applyOutcome out k (expectedItem out u p k) = outcomeItem out u k := by
  by_cases h1 : Ev.deliver k ∈ p.takeWhile nonRemove <;>
    by_cases h2 : Ev.submit k ∈ p <;>
      simp [expectedItem, h1, h2, applyOutcome, outcomeItem, mkPendingItem]

theorem expectedItem_congr {p q : List Ev}
    (htw : p.takeWhile nonRemove = q.takeWhile nonRemove)
    (hsub : ∀ k, (Ev.submit k ∈ p) ↔ (Ev.submit k ∈ q)) (out : Nat → Status × List Char)
    (u : List Char) (k : Nat) :
    expectedItem out u p k = expectedItem out u q k := by
  unfold expectedItem
  rw [htw]
  by_cases h1 : Ev.deliver k ∈ q.takeWhile nonRemove
  · simp [h1]
  · by_cases h2 : Ev.submit k ∈ q
    · simp [h1, h2, (hsub k).mpr h2]
    · have h2p : Ev.submit k ∉ p := fun hh => h2 ((hsub k).mp hh)
      simp [h1, h2, h2p]


set_option maxHeartbeats 1000000 in
theorem runTrace_char (out : Nat → Status × List Char) (job0 : Job)
    (urls : List (List Char)) (σ : List Nat)
    (hσ : σ.Perm (List.range urls.length)) (p : List Ev)
    (hp : p.filter nonRemove <+: runEvents σ urls.length) :
    (∀ k : Nat,
      (runTrace out (initRun job0 urls) p).job.items[k]? =
        (urls[k]?).map (fun u => expectedItem out u p k)) ∧
    (runTrace out (initRun job0 urls) p).job.status =
      (if Ev.finalize ∈ p.takeWhile nonRemove then
        jobFinalStatus (finalItems out urls) else Status.running) := by
  induction p using List.reverseRecOn with
  | nil =>
    refine ⟨fun k => ?_, by simp [runTrace, initRun]⟩
    simp [runTrace, initRun, expectedItem]
  | append_singleton p e ih =>
    have hcon := runTrace_concat out (initRun job0 urls) p e
    cases e with
    | submit j =>
      have hfilter : (p ++ [Ev.submit j]).filter nonRemove
          = p.filter nonRemove ++ [Ev.submit j] := filter_nonRemove_concat (by simp)
      rw [hfilter] at hp
      have hpp : p.filter nonRemove <+: runEvents σ urls.length :=
        (List.prefix_append _ _).trans hp
      obtain ⟨hjn, hF⟩ := concat_prefix_submit hp
      obtain ⟨hitems, hstatus⟩ := ih hpp
      have hnodel : ∀ k, Ev.deliver k ∉ p := by
        intro k hk
        have h2 : Ev.deliver k ∈ p.filter nonRemove := List.mem_filter.mpr ⟨hk, rfl⟩
        rw [hF] at h2
        exact not_deliver_mem_map_submit _ _ h2
      have hnodel_tw : ∀ k, Ev.deliver k ∉ p.takeWhile nonRemove := fun k hk =>
        hnodel k ((List.takeWhile_prefix nonRemove).subset hk)
      have hnodel_tw2 : ∀ k, Ev.deliver k ∉ (p ++ [Ev.submit j]).takeWhile nonRemove := by
        intro k hk
        have h2 := (takeWhile_prefix_filter nonRemove (p ++ [Ev.submit j])).subset hk
        rw [hfilter, hF] at h2
        rcases List.mem_append.mp h2 with h3 | h3
        · exact not_deliver_mem_map_submit _ _ h3
        · simp at h3
      have hsubj : Ev.submit j ∉ p := by
        intro hk
        have h2 : Ev.submit j ∈ p.filter nonRemove := List.mem_filter.mpr ⟨hk, rfl⟩
        rw [hF] at h2
        rcases List.mem_map.mp h2 with ⟨i, hi, hie⟩
        have hij : i = j := by simpa using hie
        rw [hij] at hi
        exact absurd (List.mem_range.mp hi) (lt_irrefl j)
      have hnofin_tw : Ev.finalize ∉ p.takeWhile nonRemove := by
        intro hk
        have h2 : Ev.finalize ∈ p.filter nonRemove :=
          List.mem_filter.mpr ⟨(List.takeWhile_prefix nonRemove).subset hk, rfl⟩
        rw [hF] at h2
        exact not_finalize_mem_map_submit _ h2
      have hnofin_tw2 : Ev.finalize ∉ (p ++ [Ev.submit j]).takeWhile nonRemove := by
        intro hk
        have h2 := (takeWhile_prefix_filter nonRemove (p ++ [Ev.submit j])).subset hk
        rw [hfilter, hF] at h2
        rcases List.mem_append.mp h2 with h3 | h3
        · exact not_finalize_mem_map_submit _ h3
        · simp at h3
      refine ⟨fun k => ?_, ?_⟩
      · rw [hcon]
        simp only [step]
        rw [updateAt_getElem?]
        by_cases hkj : k = j
        · subst hkj
          rw [if_pos rfl, hitems k]
          cases hu : urls[k]? with
          | none => rfl
          | some u =>
            have e1 : expectedItem out u p k = mkPendingItem u := by
              unfold expectedItem
              rw [if_neg (hnodel_tw k), if_neg hsubj]
            have e2 : expectedItem out u (p ++ [Ev.submit k]) k
                = { url := u, status := Status.running, message := [] } := by
              unfold expectedItem
              rw [if_neg (hnodel_tw2 k), if_pos (by simp)]
            simp [e1, e2, mkPendingItem]
        · rw [if_neg hkj, hitems k]
          cases hu : urls[k]? with
          | none => rfl
          | some u =>
            have e3 : expectedItem out u (p ++ [Ev.submit j]) k = expectedItem out u p k := by
              unfold expectedItem
              rw [if_neg (hnodel_tw2 k), if_neg (hnodel_tw k)]
              have hmem : (Ev.submit k ∈ p ++ [Ev.submit j]) ↔ (Ev.submit k ∈ p) := by
                simp [hkj]
              by_cases h2 : Ev.submit k ∈ p
              · rw [if_pos h2, if_pos (hmem.mpr h2)]
              · rw [if_neg h2, if_neg (fun hh => h2 (hmem.mp hh))]
            simp [e3]
      · rw [hcon]
        simp only [step]
        rw [hstatus, if_neg hnofin_tw, if_neg hnofin_tw2]
    | deliver j =>
      have hfilter : (p ++ [Ev.deliver j]).filter nonRemove
          = p.filter nonRemove ++ [Ev.deliver j] := filter_nonRemove_concat (by simp)
      rw [hfilter] at hp
      have hpp : p.filter nonRemove <+: runEvents σ urls.length :=
        (List.prefix_append _ _).trans hp
      obtain ⟨τ, hτ, hF⟩ := concat_prefix_deliver hp
      obtain ⟨hitems, hstatus⟩ := ih hpp
      have hσnd : σ.Nodup := hσ.symm.nodup (List.nodup_range _)
      have hjσ : j ∈ σ := hτ.subset (by simp)
      have hjn : j < urls.length := List.mem_range.mp (hσ.subset hjσ)
      have hjτ : j ∉ τ := by
        have hnd : (τ ++ [j]).Nodup := List.Nodup.sublist hτ.sublist hσnd
        have h2 := List.nodup_append.mp hnd
        exact fun hj => h2.2.2 hj (by simp)
      have hnofin_p : Ev.finalize ∉ p := by
        intro hk
        have h2 : Ev.finalize ∈ p.filter nonRemove := List.mem_filter.mpr ⟨hk, rfl⟩
        rw [hF] at h2
        rcases List.mem_append.mp h2 with h3 | h3
        · exact not_finalize_mem_map_submit _ h3
        · exact not_finalize_mem_map_deliver _ h3
      have hreg := runTrace_registered out (initRun job0 urls) p
      by_cases hrem : Ev.remove ∈ p
      · have hregf : (runTrace out (initRun job0 urls) p).registered = false := by
          cases hb : (runTrace out (initRun job0 urls) p).registered
          · rfl
          · exact absurd (hreg.mp hb).2 (by simpa using hrem)
        have htw2 : (p ++ [Ev.deliver j]).takeWhile nonRemove = p.takeWhile nonRemove :=
          takeWhile_nonRemove_append_of_mem _ hrem
        have hexp : ∀ u k, expectedItem out u (p ++ [Ev.deliver j]) k
            = expectedItem out u p k :=
          fun u k => expectedItem_congr htw2 (fun k => by simp) out u k
        refine ⟨fun k => ?_, ?_⟩
        · rw [hcon]
          simp only [step, hregf, Bool.false_eq_true, if_false]
          rw [hitems k]
          cases hu : urls[k]? with
          | none => rfl
          | some u => simp [hexp]
        · rw [hcon]
          simp only [step, hregf, Bool.false_eq_true, if_false]
          rw [hstatus, htw2]
      · have hregt : (runTrace out (initRun job0 urls) p).registered = true :=
          hreg.mpr ⟨rfl, hrem⟩
        have hrem2 : Ev.remove ∉ p ++ [Ev.deliver j] := by
          simp only [List.mem_append, not_or]
          exact ⟨hrem, by simp⟩
        have htwp : p.takeWhile nonRemove = p := takeWhile_nonRemove_eq_self hrem
        have htwp2 : (p ++ [Ev.deliver j]).takeWhile nonRemove = p ++ [Ev.deliver j] :=
          takeWhile_nonRemove_eq_self hrem2
        refine ⟨fun k => ?_, ?_⟩
        · rw [hcon]
          simp only [step, hregt, if_true]
          rw [updateAt_getElem?]
          by_cases hkj : k = j
          · subst hkj
            rw [if_pos rfl, hitems k]
            cases hu : urls[k]? with
            | none => rfl
            | some u =>
              have e2 : expectedItem out u (p ++ [Ev.deliver k]) k = outcomeItem out u k := by
                unfold expectedItem
                rw [htwp2, if_pos (by simp)]
              simp [e2, applyOutcome_expectedItem]
          · rw [if_neg hkj, hitems k]
            cases hu : urls[k]? with
            | none => rfl
            | some u =>
              have e3 : expectedItem out u (p ++ [Ev.deliver j]) k
                  = expectedItem out u p k := by
                unfold expectedItem
                rw [htwp, htwp2]
                have h1 : (Ev.deliver k ∈ p ++ [Ev.deliver j]) ↔ (Ev.deliver k ∈ p) := by
                  simp [hkj]
                have h2 : (Ev.submit k ∈ p ++ [Ev.deliver j]) ↔ (Ev.submit k ∈ p) := by
                  simp
                by_cases hd : Ev.deliver k ∈ p
                · rw [if_pos hd, if_pos (h1.mpr hd)]
                · rw [if_neg hd, if_neg (fun hh => hd (h1.mp hh))]
                  by_cases hs : Ev.submit k ∈ p
                  · rw [if_pos hs, if_pos (h2.mpr hs)]
                  · rw [if_neg hs, if_neg (fun hh => hs (h2.mp hh))]
              simp [e3]
        · rw [hcon]
          simp only [step, hregt, if_true]
          rw [hstatus, htwp, htwp2, if_neg hnofin_p, if_neg (by
            simp only [List.mem_append, not_or]
            exact ⟨hnofin_p, by simp⟩)]
    | finalize =>
      have hfilter : (p ++ [Ev.finalize]).filter nonRemove
          = p.filter nonRemove ++ [Ev.finalize] := filter_nonRemove_concat (by simp)
      rw [hfilter] at hp
      have hpp : p.filter nonRemove <+: runEvents σ urls.length :=
        (List.prefix_append _ _).trans hp
      have hF := concat_prefix_finalize hp
      obtain ⟨hitems, hstatus⟩ := ih hpp
      have hnofin_p : Ev.finalize ∉ p := by
        intro hk
        have h2 : Ev.finalize ∈ p.filter nonRemove := List.mem_filter.mpr ⟨hk, rfl⟩
        rw [hF] at h2
        rcases List.mem_append.mp h2 with h3 | h3
        · exact not_finalize_mem_map_submit _ h3
        · exact not_finalize_mem_map_deliver _ h3
      have hreg := runTrace_registered out (initRun job0 urls) p
      by_cases hrem : Ev.remove ∈ p
      · have hregf : (runTrace out (initRun job0 urls) p).registered = false := by
          cases hb : (runTrace out (initRun job0 urls) p).registered
          · rfl
          · exact absurd (hreg.mp hb).2 (by simpa using hrem)
        have htw2 : (p ++ [Ev.finalize]).takeWhile nonRemove = p.takeWhile nonRemove :=
          takeWhile_nonRemove_append_of_mem _ hrem
        have hexp : ∀ u k, expectedItem out u (p ++ [Ev.finalize]) k
            = expectedItem out u p k :=
          fun u k => expectedItem_congr htw2 (fun k => by simp) out u k
        refine ⟨fun k => ?_, ?_⟩
        · rw [hcon]
          simp only [step, hregf, Bool.false_eq_true, if_false]
          rw [hitems k]
          cases hu : urls[k]? with
          | none => rfl
          | some u => simp [hexp]
        · rw [hcon]
          simp only [step, hregf, Bool.false_eq_true, if_false]
          rw [hstatus, htw2]
      · have hregt : (runTrace out (initRun job0 urls) p).registered = true :=
          hreg.mpr ⟨rfl, hrem⟩
        have hrem2 : Ev.remove ∉ p ++ [Ev.finalize] := by
          simp only [List.mem_append, not_or]
          exact ⟨hrem, by simp⟩
        have htwp : p.takeWhile nonRemove = p := takeWhile_nonRemove_eq_self hrem
        have htwp2 : (p ++ [Ev.finalize]).takeWhile nonRemove = p ++ [Ev.finalize] :=
          takeWhile_nonRemove_eq_self hrem2
        have hdel_p : ∀ k, k < urls.length → Ev.deliver k ∈ p := by
          intro k hk
          have hkσ : k ∈ σ := hσ.symm.subset (List.mem_range.mpr hk)
          have h2 : Ev.deliver k ∈ p.filter nonRemove := by
            rw [hF]
            exact List.mem_append.mpr (Or.inr (List.mem_map.mpr ⟨k, hkσ, rfl⟩))
          exact (List.mem_filter.mp h2).1
        have hitems_full : (runTrace out (initRun job0 urls) p).job.items
            = finalItems out urls := by
          refine List.ext_getElem? (fun k => ?_)
          rw [hitems k]
          rw [finalItems, List.getElem?_mapIdx]
          cases hu : urls[k]? with
          | none => rfl
          | some u =>
            have hk : k < urls.length := (List.getElem?_eq_some.mp hu).1
            have e4 : expectedItem out u p k = outcomeItem out u k := by
              unfold expectedItem
              rw [htwp, if_pos (hdel_p k hk)]
            simp [e4]
        refine ⟨fun k => ?_, ?_⟩
        · rw [hcon]
          simp only [step, hregt, if_true]
          rw [hitems k]
          cases hu : urls[k]? with
          | none => rfl
          | some u =>
            have e3 : expectedItem out u (p ++ [Ev.finalize]) k
                = expectedItem out u p k := by
              unfold expectedItem
              rw [htwp, htwp2]
              have h1 : (Ev.deliver k ∈ p ++ [Ev.finalize]) ↔ (Ev.deliver k ∈ p) := by
                simp
              have h2 : (Ev.submit k ∈ p ++ [Ev.finalize]) ↔ (Ev.submit k ∈ p) := by
                simp
              by_cases hd : Ev.deliver k ∈ p
              · rw [if_pos hd, if_pos (h1.mpr hd)]
              · rw [if_neg hd, if_neg (fun hh => hd (h1.mp hh))]
                by_cases hs : Ev.submit k ∈ p
                · rw [if_pos hs, if_pos (h2.mpr hs)]
                · rw [if_neg hs, if_neg (fun hh => hs (h2.mp hh))]
            simp [e3]
        · rw [hcon]
          simp only [step, hregt, if_true]
          rw [hitems_full, htwp2, if_pos (by simp)]
    | remove =>
      have hfilter := filter_nonRemove_concat_remove p
      rw [hfilter] at hp
      obtain ⟨hitems, hstatus⟩ := ih hp
      have htw2 : (p ++ [Ev.remove]).takeWhile nonRemove = p.takeWhile nonRemove := by
        by_cases hrem : Ev.remove ∈ p
        · exact takeWhile_nonRemove_append_of_mem _ hrem
        · rw [takeWhile_append_of_all _ (fun a ha => nonRemove_eq_true
            (fun hh => hrem (hh ▸ ha)))]
          rw [takeWhile_nonRemove_eq_self hrem]
          simp [nonRemove]
      have hexp : ∀ u k, expectedItem out u (p ++ [Ev.remove]) k
          = expectedItem out u p k :=
        fun u k => expectedItem_congr htw2 (fun k => by simp) out u k
      refine ⟨fun k => ?_, ?_⟩
      · rw [hcon]
        simp only [step]
        rw [hitems k]
        cases hu : urls[k]? with
        | none => rfl
        | some u => simp [hexp]
      · rw [hcon]
        simp only [step]
        rw [hstatus, htw2]


/-! ## Corollaries about a completed background run -/

theorem remove_not_mem_runEvents (σ : List Nat) (n : Nat) :
    Ev.remove ∉ runEvents σ n := by
  simp [runEvents]

theorem filter_nonRemove_runEvents (σ : List Nat) (n : Nat) :
    (runEvents σ n).filter nonRemove = runEvents σ n :=
  List.filter_eq_self.mpr fun _ ha =>
    nonRemove_eq_true fun h => remove_not_mem_runEvents σ n (h ▸ ha)

theorem takeWhile_nonRemove_runEvents (σ : List Nat) (n : Nat) :
    (runEvents σ n).takeWhile nonRemove = runEvents σ n :=
  takeWhile_nonRemove_eq_self (remove_not_mem_runEvents σ n)

/-- The final state of a background run that executes to completion with no
interference: all submissions, all deliveries (in completion order `σ`),
then the final status write. -/
def run_job_final (out : Nat → Status × List Char) (job0 : Job)
    (urls : List (List Char)) (σ : List Nat) : RunState :=
  runTrace out (initRun job0 urls) (runEvents σ urls.length)

theorem runTrace_full_items (out : Nat → Status × List Char) (job0 : Job)
    (urls : List (List Char)) (σ : List Nat)
    (hσ : σ.Perm (List.range urls.length)) :
    (run_job_final out job0 urls σ).job.items = finalItems out urls := by
  have hp : (runEvents σ urls.length).filter nonRemove <+: runEvents σ urls.length := by
    rw [filter_nonRemove_runEvents]
  obtain ⟨hitems, _⟩ := runTrace_char out job0 urls σ hσ _ hp
  refine List.ext_getElem? fun k => ?_
  rw [run_job_final, hitems k, finalItems, List.getElem?_mapIdx]
  cases hu : urls[k]? with
  | none => rfl
  | some u =>
    have hk : k < urls.length := (List.getElem?_eq_some.mp hu).1
    have hkσ : k ∈ σ := hσ.symm.subset (List.mem_range.mpr hk)
    have hdel : Ev.deliver k ∈ (runEvents σ urls.length).takeWhile nonRemove := by
      rw [takeWhile_nonRemove_runEvents, runEvents]
      simp [hkσ]
    simp [expectedItem, hdel]

theorem runTrace_full_status (out : Nat → Status × List Char) (job0 : Job)
    (urls : List (List Char)) (σ : List Nat)
    (hσ : σ.Perm (List.range urls.length)) :
    (run_job_final out job0 urls σ).job.status = jobFinalStatus (finalItems out urls) := by
  have hp : (runEvents σ urls.length).filter nonRemove <+: runEvents σ urls.length := by
    rw [filter_nonRemove_runEvents]
  obtain ⟨_, hstatus⟩ := runTrace_char out job0 urls σ hσ _ hp
  rw [run_job_final, hstatus, takeWhile_nonRemove_runEvents, if_pos (by simp [runEvents])]

/-- The final reduction, with the Bool `all` replaced by its propositional
meaning. -/
theorem jobFinalStatus_spec (items : List Item) :
    jobFinalStatus items =
      if ∀ it ∈ items, it.status = Status.done then Status.done else Status.error := by
  unfold jobFinalStatus
  refine if_congr ?_ rfl rfl
  rw [List.all_eq_true]
  exact ⟨fun h it hit => by simpa using h it hit, fun h it hit => by simp [h it hit]⟩

theorem download_one_terminal (r : Except (List Char) Unit) :
    ((download_one r).1).isTerminal = true := by
  cases r <;> rfl

theorem finalItems_terminal (beh : Nat → Except (List Char) Unit)
    (urls : List (List Char)) :
    ∀ it ∈ finalItems (fun i => download_one (beh i)) urls,
      it.status.isTerminal = true := by
  intro it hit
  obtain ⟨k, hk⟩ := List.mem_iff_getElem?.mp hit
  rw [finalItems, List.getElem?_mapIdx] at hk
  cases hu : urls[k]? with
  | none => rw [hu] at hk; exact absurd hk (by simp)
  | some u =>
    rw [hu] at hk
    have : outcomeItem (fun i => download_one (beh i)) u k = it := by simpa using hk
    rw [← this]
    exact download_one_terminal (beh k)


/-! ## Claim theorems -/

/-- C1: for every job whose background run completes (all outcomes received
and applied, job still registered), the final status write happens exactly
once after all outcomes — every schedule prefix without the final write
still shows `running` — and the written value is the pure reduction over
item statuses: `done` iff every item is `done`, `error` iff at least one
item is `error` and all items are terminal. -/
theorem C1_job_terminal_status (beh : Nat → Except (List Char) Unit) (job0 : Job)
    (urls : List (List Char)) (σ : List Nat)
    (hσ : σ.Perm (List.range urls.length)) :
    ((run_job_final (fun i => download_one (beh i)) job0 urls σ).job.status
        = jobFinalStatus (run_job_final (fun i => download_one (beh i)) job0 urls σ).job.items)
    ∧ ((run_job_final (fun i => download_one (beh i)) job0 urls σ).job.status = Status.done
        ↔ ∀ it ∈ (run_job_final (fun i => download_one (beh i)) job0 urls σ).job.items,
            it.status = Status.done)
    ∧ ((run_job_final (fun i => download_one (beh i)) job0 urls σ).job.status = Status.error
        ↔ ((∃ it ∈ (run_job_final (fun i => download_one (beh i)) job0 urls σ).job.items,
              it.status = Status.error)
           ∧ ∀ it ∈ (run_job_final (fun i => download_one (beh i)) job0 urls σ).job.items,
              it.status.isTerminal = true))
    ∧ (∀ p, p <+: runEvents σ urls.length → Ev.finalize ∉ p →
        (runTrace (fun i => download_one (beh i)) (initRun job0 urls) p).job.status
          = Status.running) := by
  have hfi := runTrace_full_items (fun i => download_one (beh i)) job0 urls σ hσ
  have hfs := runTrace_full_status (fun i => download_one (beh i)) job0 urls σ hσ
  have hterm := finalItems_terminal beh urls
  refine ⟨?_, ?_, ?_, ?_⟩
  · rw [hfs, hfi]
  · rw [hfs, hfi, jobFinalStatus_spec]
    by_cases h : ∀ it ∈ finalItems (fun i => download_one (beh i)) urls,
        it.status = Status.done
    · simp [h]
    · simp [h]
  · rw [hfs, hfi, jobFinalStatus_spec]
    by_cases h : ∀ it ∈ finalItems (fun i => download_one (beh i)) urls,
        it.status = Status.done
    · rw [if_pos h]
      constructor
      · intro hh
        exact absurd hh (by simp)
      · rintro ⟨⟨it, hit, he⟩, _⟩
        rw [h it hit] at he
        exact absurd he (by simp)
    · rw [if_neg h]
      push_neg at h
      obtain ⟨it, hit, hne⟩ := h
      refine ⟨fun _ => ⟨⟨it, hit, ?_⟩, hterm⟩, fun _ => rfl⟩
      have ht := hterm it hit
      cases hst : it.status with
      | pending => rw [hst] at ht; simp [Status.isTerminal] at ht
      | running => rw [hst] at ht; simp [Status.isTerminal] at ht
      | done => exact absurd hst hne
      | error => rfl
  · intro p hpre hfin
    have hp : p.filter nonRemove <+: runEvents σ urls.length := by
      have h2 := List.IsPrefix.filter nonRemove hpre
      rwa [filter_nonRemove_runEvents] at h2
    obtain ⟨_, hstatus⟩ := runTrace_char (fun i => download_one (beh i)) job0 urls σ hσ p hp
    rw [hstatus, if_neg (fun hh => hfin ((List.takeWhile_prefix nonRemove).subset hh))]


theorem takeWhile_prefix_append (q : α → Bool) (l1 l2 : List α) :
    l1.takeWhile q <+: (l1 ++ l2).takeWhile q := by
  by_cases h : ∀ a ∈ l1, q a = true
  · rw [takeWhile_append_of_all l2 h, List.takeWhile_eq_self_iff.mpr h]
    exact List.prefix_append _ _
  · push_neg at h
    obtain ⟨a, ha, hqa⟩ := h
    rw [takeWhile_append_of_not_all l2 ⟨a, ha, by simpa using hqa⟩]

theorem download_one_rank (r : Except (List Char) Unit) :
    ((download_one r).1).rank = 2 := by
  cases r <;> rfl

theorem jobFinalStatus_rank (items : List Item) : (jobFinalStatus items).rank = 2 := by
  unfold jobFinalStatus
  split <;> rfl

theorem jobFinalStatus_isTerminal (items : List Item) :
    (jobFinalStatus items).isTerminal = true := by
  unfold jobFinalStatus
  split <;> rfl

/-- C3: along any schedule of a run (deliveries in completion order `σ`,
registry deletions interleaved anywhere), observing the job at a point `p`
and at any later point `p ++ q`, every item's status rank only grows, a
terminal item never changes again, the job status rank only grows, and a
terminal job status never changes again. -/
theorem C3_status_never_regresses (beh : Nat → Except (List Char) Unit) (job0 : Job)
    (urls : List (List Char)) (σ : List Nat) (p q r : List Ev)
    (hσ : σ.Perm (List.range urls.length))
    (hsched : (p ++ q ++ r).filter nonRemove = runEvents σ urls.length) :
    (∀ (k : Nat) (it1 it2 : Item),
      (runTrace (fun i => download_one (beh i)) (initRun job0 urls) p).job.items[k]?
          = some it1 →
      (runTrace (fun i => download_one (beh i)) (initRun job0 urls) (p ++ q)).job.items[k]?
          = some it2 →
      it1.status.rank ≤ it2.status.rank ∧ (it1.status.isTerminal = true → it2 = it1))
    ∧ ((runTrace (fun i => download_one (beh i)) (initRun job0 urls) p).job.status.rank
        ≤ (runTrace (fun i => download_one (beh i)) (initRun job0 urls) (p ++ q)).job.status.rank)
    ∧ ((runTrace (fun i => download_one (beh i)) (initRun job0 urls) p).job.status.isTerminal
          = true →
        (runTrace (fun i => download_one (beh i)) (initRun job0 urls) (p ++ q)).job.status
          = (runTrace (fun i => download_one (beh i)) (initRun job0 urls) p).job.status) := by
  have hpre1 : p <+: p ++ q ++ r :=
    (List.prefix_append p q).trans (List.prefix_append (p ++ q) r)
  have hpre2 : p ++ q <+: p ++ q ++ r := List.prefix_append (p ++ q) r
  have hp1 : p.filter nonRemove <+: runEvents σ urls.length := by
    have h2 := List.IsPrefix.filter nonRemove hpre1
    rwa [hsched] at h2
  have hp2 : (p ++ q).filter nonRemove <+: runEvents σ urls.length := by
    have h2 := List.IsPrefix.filter nonRemove hpre2
    rwa [hsched] at h2
  obtain ⟨hitems1, hstatus1⟩ :=
    runTrace_char (fun i => download_one (beh i)) job0 urls σ hσ p hp1
  obtain ⟨hitems2, hstatus2⟩ :=
    runTrace_char (fun i => download_one (beh i)) job0 urls σ hσ (p ++ q) hp2
  have htw := takeWhile_prefix_append nonRemove p q
  refine ⟨?_, ?_, ?_⟩
  · intro k it1 it2 h1 h2
    rw [hitems1 k] at h1
    rw [hitems2 k] at h2
    cases hu : urls[k]? with
    | none => rw [hu] at h1; exact absurd h1 (by simp)
    | some u =>
      rw [hu] at h1 h2
      have he1 : it1 = expectedItem (fun i => download_one (beh i)) u p k := by
        simpa using h1.symm
      have he2 : it2 = expectedItem (fun i => download_one (beh i)) u (p ++ q) k := by
        simpa using h2.symm
      subst he1
      subst he2
      by_cases d1 : Ev.deliver k ∈ p.takeWhile nonRemove
      · have d2 : Ev.deliver k ∈ (p ++ q).takeWhile nonRemove := htw.subset d1
        simp [expectedItem, d1, d2]
      · by_cases s1 : Ev.submit k ∈ p
        · have s2 : Ev.submit k ∈ p ++ q := List.mem_append.mpr (Or.inl s1)
          by_cases d2 : Ev.deliver k ∈ (p ++ q).takeWhile nonRemove
          · cases hb : beh k <;>
              simp [expectedItem, d1, d2, s1, outcomeItem, download_one, hb,
                Status.rank, Status.isTerminal]
          · simp [expectedItem, d1, d2, s1, s2, Status.rank, Status.isTerminal]
        · by_cases d2 : Ev.deliver k ∈ (p ++ q).takeWhile nonRemove
          · cases hb : beh k <;>
              simp [expectedItem, d1, d2, s1, mkPendingItem, outcomeItem,
                download_one, hb, Status.rank, Status.isTerminal]
          · by_cases s2 : Ev.submit k ∈ p ++ q
            · simp [expectedItem, d1, d2, s1, s2, mkPendingItem, Status.rank,
                Status.isTerminal]
            · simp [expectedItem, d1, d2, s1, s2, mkPendingItem, Status.rank,
                Status.isTerminal]
  · rw [hstatus1, hstatus2]
    by_cases f1 : Ev.finalize ∈ p.takeWhile nonRemove
    · rw [if_pos f1, if_pos (htw.subset f1)]
    · rw [if_neg f1]
      by_cases f2 : Ev.finalize ∈ (p ++ q).takeWhile nonRemove
      · rw [if_pos f2, jobFinalStatus_rank]
        simp [Status.rank]
      · rw [if_neg f2]
  · rw [hstatus1, hstatus2]
    by_cases f1 : Ev.finalize ∈ p.takeWhile nonRemove
    · rw [if_pos f1, if_pos (htw.subset f1)]
      exact fun _ => rfl
    · rw [if_neg f1]
      intro ht
      simp [Status.isTerminal] at ht


/-- C5: an exception raised by the fetch call of any item is caught at the
worker boundary (`download_one`) and becomes an `(error, str(exc))` outcome
for that item only; every sibling still reaches its own terminal state, and
the job as a whole ends in a terminal status rather than failing. -/
theorem C5_per_item_failure_contained (beh : Nat → Except (List Char) Unit)
    (job0 : Job) (urls : List (List Char)) (σ : List Nat)
    (hσ : σ.Perm (List.range urls.length)) :
    (∀ (k : Nat) (u : List Char), urls[k]? = some u →
      (run_job_final (fun i => download_one (beh i)) job0 urls σ).job.items[k]?
        = some (match beh k with
            | Except.ok _ => { url := u, status := Status.done, message := [] }
            | Except.error exc => { url := u, status := Status.error, message := exc }))
    ∧ (∀ it ∈ (run_job_final (fun i => download_one (beh i)) job0 urls σ).job.items,
        it.status.isTerminal = true)
    ∧ ((run_job_final (fun i => download_one (beh i)) job0 urls σ).job.status).isTerminal
        = true := by
  have hfi := runTrace_full_items (fun i => download_one (beh i)) job0 urls σ hσ
  have hfs := runTrace_full_status (fun i => download_one (beh i)) job0 urls σ hσ
  refine ⟨?_, ?_, ?_⟩
  · intro k u hu
    rw [hfi, finalItems, List.getElem?_mapIdx, hu]
    cases hb : beh k <;> simp [outcomeItem, download_one, hb]
  · rw [hfi]
    exact finalItems_terminal beh urls
  · rw [hfs]
    exact jobFinalStatus_isTerminal _

theorem RunState_ext {s1 s2 : RunState} (h1 : s1.registered = s2.registered)
    (h2 : s1.job = s2.job) : s1 = s2 := by
  cases s1; cases s2; simp_all

theorem Job_ext {j1 j2 : Job} (h1 : j1.id = j2.id) (h2 : j1.status = j2.status)
    (h3 : j1.items = j2.items) (h4 : j1.workers = j2.workers) : j1 = j2 := by
  cases j1; cases j2; simp_all

/-- C10: for a fixed target list and a fixed assignment of one outcome per
item index, the final state of a completed run — every item's status and
message and the job's overall status — is the same for every order in which
the task outcomes are delivered and applied. -/
theorem C10_outcome_order_irrelevant (out : Nat → Status × List Char) (job0 : Job)
    (urls : List (List Char)) (σ τ : List Nat)
    (hσ : σ.Perm (List.range urls.length)) (hτ : τ.Perm (List.range urls.length)) :
    run_job_final out job0 urls σ = run_job_final out job0 urls τ := by
  have hreg1 : (run_job_final out job0 urls σ).registered = true :=
    (runTrace_registered out (initRun job0 urls) (runEvents σ urls.length)).mpr
      ⟨rfl, remove_not_mem_runEvents _ _⟩
  have hreg2 : (run_job_final out job0 urls τ).registered = true :=
    (runTrace_registered out (initRun job0 urls) (runEvents τ urls.length)).mpr
      ⟨rfl, remove_not_mem_runEvents _ _⟩
  have hpres1 := runTrace_preserves out (initRun job0 urls) (runEvents σ urls.length)
  have hpres2 := runTrace_preserves out (initRun job0 urls) (runEvents τ urls.length)
  refine RunState_ext (hreg1.trans hreg2.symm) (Job_ext ?_ ?_ ?_ ?_)
  · exact hpres1.1.trans hpres2.1.symm
  · exact (runTrace_full_status out job0 urls σ hσ).trans
      (runTrace_full_status out job0 urls τ hτ).symm
  · exact (runTrace_full_items out job0 urls σ hσ).trans
      (runTrace_full_items out job0 urls τ hτ).symm
  · exact hpres1.2.1.trans hpres2.2.1.symm

/-- C4 counterexample: with 3 targets and an effective worker count of 2,
the state reached after the submission loop (a prefix of a legal run
schedule) has all 3 items simultaneously in status `running`, exceeding the
worker count — the submission loop of lines 149-151 marks every item
`running` at submission time, not when a worker picks it up. -/
theorem C4_counterexample :
    (([0, 1, 2] : List Nat).Perm (List.range 3))
    ∧ ([Ev.submit 0, Ev.submit 1, Ev.submit 2] <+: runEvents [0, 1, 2] 3)
    ∧ (((runTrace (fun _ => (Status.done, []))
          (initRun { id := "j", status := Status.pending, items := [], workers := 2 }
            ["a".toList, "b".toList, "c".toList])
          [Ev.submit 0, Ev.submit 1, Ev.submit 2]).job.items.filter
            (fun it => it.status == Status.running)).length = 3)
    ∧ ((initRun { id := "j", status := Status.pending, items := [], workers := 2 }
          ["a".toList, "b".toList, "c".toList]).job.workers = 2)
    ∧ ¬((3 : Nat) ≤ 2) := by
  exact ⟨by decide, by decide, by decide, by decide, by decide⟩

/-- C4 amended: the submission loop marks every item of the job `running`
before any outcome is applied, so immediately after submission the number of
items in status `running` equals the total item count; the bound that holds
on the `running`-status count is the item count, not the worker count W (the
thread pool bounds actual execution, not the status field). -/
theorem C4_all_items_marked_running (out : Nat → Status × List Char) (job0 : Job)
    (urls : List (List Char)) :
    (∀ (k : Nat) (u : List Char), urls[k]? = some u →
      (runTrace out (initRun job0 urls)
          ((List.range urls.length).map Ev.submit)).job.items[k]?
        = some { url := u, status := Status.running, message := [] })
    ∧ ((runTrace out (initRun job0 urls)
          ((List.range urls.length).map Ev.submit)).job.items.filter
            (fun it => it.status == Status.running)).length = urls.length := by
  have hp : ((List.range urls.length).map Ev.submit).filter nonRemove
      <+: runEvents (List.range urls.length) urls.length := by
    rw [List.filter_eq_self.mpr (fun a ha => nonRemove_eq_true (fun hh => by
      rw [hh] at ha
      exact absurd ha (by simp)))]
    exact (List.prefix_append _ _).trans (List.prefix_append _ _)
  obtain ⟨hitems, _⟩ :=
    runTrace_char out job0 urls (List.range urls.length) (List.Perm.refl _) _ hp
  have hitem2 : ∀ (k : Nat) (u : List Char), urls[k]? = some u →
      (runTrace out (initRun job0 urls)
          ((List.range urls.length).map Ev.submit)).job.items[k]?
        = some { url := u, status := Status.running, message := [] } := by
    intro k u hu
    rw [hitems k, hu]
    have hk : k < urls.length := (List.getElem?_eq_some.mp hu).1
    have hnd : Ev.deliver k ∉
        ((List.range urls.length).map Ev.submit).takeWhile nonRemove := by
      intro hh
      have h2 := (List.takeWhile_prefix nonRemove).subset hh
      simp at h2
    have hsm : Ev.submit k ∈ (List.range urls.length).map Ev.submit :=
      List.mem_map.mpr ⟨k, List.mem_range.mpr hk, rfl⟩
    simp [expectedItem, hnd, hsm]
  refine ⟨hitem2, ?_⟩
  have hfull : (runTrace out (initRun job0 urls)
      ((List.range urls.length).map Ev.submit)).job.items
      = urls.map (fun u => { url := u, status := Status.running, message := [] }) := by
    refine List.ext_getElem? fun k => ?_
    rw [List.getElem?_map]
    cases hu : urls[k]? with
    | none => rw [hitems k, hu]; rfl
    | some u => rw [hitem2 k u hu]; rfl
  rw [hfull, List.filter_eq_self.mpr ?_, List.length_map]
  intro a ha
  obtain ⟨u, hu, hue⟩ := List.mem_map.mp ha
  rw [← hue]
  rfl

/-- C7: a background update that finds the job id gone from the registry
discards the update silently, without modifying any state or raising: an
absent id at the initial lookup makes the whole run a no-op, and an absent
id at an outcome arrival or at the final status write makes that step a
no-op (the model's step functions are total, so nothing is thrown). -/
theorem C7_unregistered_updates_discarded (out : Nat → Status × List Char)
    (job0 : Job) (urls : List (List Char)) (evs : List Ev) (s : RunState) (i : Nat) :
    (run_job out false job0 urls evs = { registered := false, job := job0 })
    ∧ (s.registered = false → step out s (Ev.deliver i) = s)
    ∧ (s.registered = false → step out s Ev.finalize = s) := by
  refine ⟨rfl, fun h => ?_, fun h => ?_⟩ <;> simp [step, h]


/-- C2 counterexample: the claim says a requested worker count of 0 (or a
negative one) yields the default, but the code computes
`max(1, min(0, MAX_WORKERS)) = 1`, the lower bound, not the default 4. -/
theorem C2_counterexample :
    effectiveWorkers (WorkersVal.num 0) = 1 ∧ DEFAULT_WORKERS = 4
    ∧ ¬(effectiveWorkers (WorkersVal.num 0) = DEFAULT_WORKERS) := by
  exact ⟨by decide, by decide, by decide⟩

/-- C2 amended: the effective worker count always lies in `[1, MAX_WORKERS]`;
a requested value ≤ 0 is clamped to the lower bound 1 (not the default), a
value above the maximum is clamped to the maximum, and an absent or
non-convertible value falls back to the default. -/
theorem C2_workers_clamped (w : WorkersVal) :
    (1 ≤ effectiveWorkers w ∧ effectiveWorkers w ≤ MAX_WORKERS)
    ∧ (∀ z : Int, w = WorkersVal.num z → z ≤ 0 → effectiveWorkers w = 1)
    ∧ (∀ z : Int, w = WorkersVal.num z → MAX_WORKERS ≤ z →
        effectiveWorkers w = MAX_WORKERS)
    ∧ (w = WorkersVal.absent → effectiveWorkers w = DEFAULT_WORKERS)
    ∧ (w = WorkersVal.invalid → effectiveWorkers w = DEFAULT_WORKERS) := by
  cases w with
  | absent =>
    refine ⟨?_, ?_, ?_, ?_, ?_⟩
    · decide
    · intro z hz; cases hz
    · intro z hz; cases hz
    · intro _; decide
    · intro h; cases h
  | invalid =>
    refine ⟨?_, ?_, ?_, ?_, ?_⟩
    · decide
    · intro z hz; cases hz
    · intro z hz; cases hz
    · intro h; cases h
    · intro _; decide
  | num z0 =>
    refine ⟨?_, ?_, ?_, ?_, ?_⟩
    · simp only [effectiveWorkers, MAX_WORKERS]
      omega
    · intro z hz hle
      have hzz : z0 = z := by injection hz
      subst hzz
      simp only [effectiveWorkers, MAX_WORKERS]
      omega
    · intro z hz hle
      have hzz : z0 = z := by injection hz
      subst hzz
      simp only [effectiveWorkers, MAX_WORKERS] at hle ⊢
      omega
    · intro h; cases h
    · intro h; cases h

/-- C6: a create-job request whose target list is empty after trimming blank
entries is rejected with the validation error before any id is issued, and
the registry is returned unchanged — no job is registered. -/
theorem C6_empty_targets_rejected (reg : Registry) (req : DownloadRequest)
    (freshId : String) (h : trimUrls req.urls = []) :
    api_download reg req freshId = (reg, DownloadResp.err "No URLs provided") := by
  simp [api_download, h]

/-- C8 counterexample: not every access to the shared job state is performed
under `jobs_lock`: the submission loop's item-status write (line 150) is a
shared-state write outside the lock, refuting serialization of every access. -/
theorem C8_counterexample :
    ((⟨SiteId.writeItemRunning, AccessKind.write, false⟩ : SharedAccess)
        ∈ all_shared_accesses)
    ∧ ¬(∀ a ∈ all_shared_accesses, a.underLock = true) := by
  exact ⟨by decide, by decide⟩

/-- C8 amended: every shared-state access of the core is performed under
`jobs_lock` except exactly three: the submission loop's read of the item
list and write of each item's status (lines 149-150), and `api_job`'s
serialization of the snapshot after the lock is released (line 222).  In
particular the `get_job` registry lookup itself is under the lock, but the
snapshot is rendered outside it. -/
theorem C8_lock_discipline :
    ((all_shared_accesses.filter (fun a => !a.underLock)).map SharedAccess.site
      = [SiteId.readItemsSubmit, SiteId.writeItemRunning, SiteId.readJobSerialize])
    ∧ (∀ a ∈ run_job_accesses, a.site ≠ SiteId.readItemsSubmit →
        a.site ≠ SiteId.writeItemRunning → a.underLock = true)
    ∧ (∀ a ∈ api_download_accesses, a.underLock = true)
    ∧ ((⟨SiteId.readRegistryGet, AccessKind.read, true⟩ : SharedAccess)
        ∈ api_job_accesses) := by
  exact ⟨by decide, by decide, by decide, by decide⟩


/-! ## Concrete instances -/

/-- A concrete job record as `api_download` would register it. -/
def testJob : Job :=
  { id := "j", status := Status.pending, items := [], workers := 4 }

theorem C1_witness :
    (run_job_final (fun i => download_one ((fun _ => Except.ok ()) i)) testJob
        ["u".toList] [0]).job.status = Status.done := by
  have h := C1_job_terminal_status (fun _ => Except.ok ()) testJob ["u".toList] [0]
    (by decide)
  exact h.2.1.mpr (by decide)

theorem C3_witness :
    (runTrace (fun i => download_one ((fun _ => Except.ok ()) i))
        (initRun testJob ["u".toList]) [Ev.submit 0]).job.status.rank
      ≤ (runTrace (fun i => download_one ((fun _ => Except.ok ()) i))
          (initRun testJob ["u".toList]) ([Ev.submit 0] ++ [Ev.deliver 0])).job.status.rank :=
  (C3_status_never_regresses (fun _ => Except.ok ()) testJob ["u".toList] [0]
    [Ev.submit 0] [Ev.deliver 0] [Ev.finalize] (by decide) (by decide)).2.1

theorem C5_witness :
    (run_job_final
        (fun i => download_one ((fun i => if i = 1 then Except.error "boom".toList
            else Except.ok ()) i))
        testJob ["a".toList, "b".toList, "c".toList] [2, 0, 1]).job.items[1]?
      = some { url := "b".toList, status := Status.error, message := "boom".toList } := by
  have h := C5_per_item_failure_contained
    (fun i => if i = 1 then Except.error "boom".toList else Except.ok ())
    testJob ["a".toList, "b".toList, "c".toList] [2, 0, 1] (by decide)
  have h2 := h.1 1 "b".toList (by decide)
  exact h2

theorem C10_witness :
    run_job_final (fun _ => (Status.done, ([] : List Char))) testJob
        ["a".toList, "b".toList] [0, 1]
      = run_job_final (fun _ => (Status.done, ([] : List Char))) testJob
          ["a".toList, "b".toList] [1, 0] :=
  C10_outcome_order_irrelevant (fun _ => (Status.done, [])) testJob
    ["a".toList, "b".toList] [0, 1] [1, 0] (by decide) (by decide)

theorem C4_witness :
    (runTrace (fun _ => (Status.done, ([] : List Char)))
        (initRun testJob ["a".toList, "b".toList])
        ((List.range (["a".toList, "b".toList] : List (List Char)).length).map
          Ev.submit)).job.items[0]?
      = some { url := "a".toList, status := Status.running, message := [] } :=
  (C4_all_items_marked_running (fun _ => (Status.done, [])) testJob
    ["a".toList, "b".toList]).1 0 "a".toList (by decide)

theorem C7_witness :
    (run_job (fun _ => (Status.done, ([] : List Char))) false testJob ["u".toList]
        (runEvents [0] 1)
      = { registered := false, job := testJob })
    ∧ (step (fun _ => (Status.done, ([] : List Char)))
        { registered := false, job := testJob } (Ev.deliver 0)
      = { registered := false, job := testJob })
    ∧ (step (fun _ => (Status.done, ([] : List Char)))
        { registered := false, job := testJob } Ev.finalize
      = { registered := false, job := testJob }) := by
  have h := C7_unregistered_updates_discarded (fun _ => (Status.done, []))
    testJob ["u".toList] (runEvents [0] 1) { registered := false, job := testJob } 0
  exact ⟨h.1, h.2.1 rfl, h.2.2 rfl⟩

theorem C2_witness : effectiveWorkers (WorkersVal.num (-3)) = 1 :=
  (C2_workers_clamped (WorkersVal.num (-3))).2.1 (-3) rfl (by decide)

theorem C6_witness :
    api_download []
        { urls := ["".toList, "   ".toList], mode := "video", fmt := "best",
          workers := WorkersVal.absent } "id-1"
      = ([], DownloadResp.err "No URLs provided") :=
  C6_empty_targets_rejected []
    { urls := ["".toList, "   ".toList], mode := "video", fmt := "best",
      workers := WorkersVal.absent } "id-1" (by decide)


/-! ## Lemmas for the idempotence of `normalize_channel_url` (C9) -/

theorem dropWhile_head?_not {p : α → Bool} (l : List α) :
    ∀ c, (l.dropWhile p).head? = some c → p c = false := by
  induction l with
  | nil => intro c hc; simp at hc
  | cons a tl ih =>
    intro c hc
    by_cases hp : p a = true
    · rw [List.dropWhile_cons, if_pos hp] at hc
      exact ih c hc
    · rw [List.dropWhile_cons, if_neg hp] at hc
      have ha : a = c := by simpa using hc
      subst ha
      simpa using hp

theorem dropWhile_eq_self_of_head {p : α → Bool} {l : List α}
    (h : ∀ c, l.head? = some c → p c = false) : l.dropWhile p = l := by
  cases l with
  | nil => rfl
  | cons a tl =>
    have ha := h a rfl
    rw [List.dropWhile_cons, if_neg (by simp [ha])]

theorem head?_append_left {l m : List α} (h : l ≠ []) : (l ++ m).head? = l.head? := by
  cases l with
  | nil => exact absurd rfl h
  | cons a tl => rfl

theorem getLast?_append_right {l m : List α} (h : m ≠ []) :
    (l ++ m).getLast? = m.getLast? := by
  rw [List.getLast?_append]
  cases hm : m.getLast? with
  | none => exact absurd (List.getLast?_eq_none_iff.mp hm) h
  | some c => rfl

theorem head?_of_prefix {l r : List α} (h : r <+: l) (hne : r ≠ []) :
    l.head? = r.head? := by
  obtain ⟨t, ht⟩ := h
  rw [← ht]
  exact head?_append_left hne

theorem not_prefix_cons_of_ne {a b : α} {p l : List α} (h : a ≠ b) :
    ¬((a :: p) <+: (b :: l)) := by
  rintro ⟨t, ht⟩
  rw [List.cons_append] at ht
  injection ht with h1 h2
  exact h h1

theorem pyStartsWith_iff {l p : List Char} : pyStartsWith l p = true ↔ p <+: l :=
  List.isPrefixOf_iff_prefix

theorem pyStartsWith_eq_false {l p : List Char} (h : ¬ p <+: l) :
    pyStartsWith l p = false := by
  cases hh : pyStartsWith l p with
  | false => rfl
  | true => exact absurd (pyStartsWith_iff.mp hh) h

theorem pyContains_iff {l p : List Char} : pyContains l p = true ↔ p <:+: l := by
  induction l with
  | nil =>
    rw [pyContains]
    rw [List.infix_nil, List.isEmpty_iff]
  | cons a tl ih =>
    rw [pyContains, Bool.or_eq_true, ih, List.isPrefixOf_iff_prefix]
    exact (List.infix_cons_iff).symm

theorem pyStrip_prefix_lstrip (l : List Char) : pyStrip l <+: pyLStrip l := by
  unfold pyStrip pyRStrip
  have hsuf := (List.dropWhile_suffix (l := (pyLStrip l).reverse) isPySpace).reverse
  rwa [List.reverse_reverse] at hsuf

theorem pyStrip_head?_not (l : List Char) :
    ∀ c, (pyStrip l).head? = some c → isPySpace c = false := by
  intro c hc
  have hne : pyStrip l ≠ [] := by
    intro hh; rw [hh] at hc; simp at hc
  have h2 := head?_of_prefix (pyStrip_prefix_lstrip l) hne
  rw [hc] at h2
  exact dropWhile_head?_not l c h2

theorem pyStrip_getLast?_not (l : List Char) :
    ∀ c, (pyStrip l).getLast? = some c → isPySpace c = false := by
  intro c hc
  rw [List.getLast?_eq_head?_reverse] at hc
  have h2 : (pyStrip l).reverse = (pyLStrip l).reverse.dropWhile isPySpace := by
    unfold pyStrip pyRStrip
    rw [List.reverse_reverse]
  rw [h2] at hc
  exact dropWhile_head?_not _ c hc

theorem pyStrip_eq_self_of {l : List Char}
    (hh : ∀ c, l.head? = some c → isPySpace c = false)
    (hl : ∀ c, l.getLast? = some c → isPySpace c = false) : pyStrip l = l := by
  unfold pyStrip pyLStrip pyRStrip
  rw [dropWhile_eq_self_of_head hh]
  rw [dropWhile_eq_self_of_head
    (fun c hc => hl c (by rwa [List.getLast?_eq_head?_reverse]))]
  exact List.reverse_reverse l

theorem pyStrip_idem (l : List Char) : pyStrip (pyStrip l) = pyStrip l :=
  pyStrip_eq_self_of (pyStrip_head?_not l) (pyStrip_getLast?_not l)

theorem pyStrip_prepend {P u : List Char} (hP : P ≠ [])
    (hPhead : ∀ c, P.head? = some c → isPySpace c = false)
    (hulast : ∀ c, u.getLast? = some c → isPySpace c = false)
    (hune : u ≠ []) : pyStrip (P ++ u) = P ++ u := by
  refine pyStrip_eq_self_of ?_ ?_
  · intro c hc
    rw [head?_append_left hP] at hc
    exact hPhead c hc
  · intro c hc
    rw [getLast?_append_right hune] at hc
    exact hulast c hc

theorem rstripSlash_prefix (l : List Char) : rstripSlash l <+: l := by
  unfold rstripSlash
  have hsuf := (List.dropWhile_suffix (l := l.reverse) (· == '/')).reverse
  rwa [List.reverse_reverse] at hsuf

theorem rstripSlash_getLast?_not (l : List Char) :
    ∀ c, (rstripSlash l).getLast? = some c → (c == '/') = false := by
  intro c hc
  rw [List.getLast?_eq_head?_reverse] at hc
  have h2 : (rstripSlash l).reverse = l.reverse.dropWhile (· == '/') := by
    unfold rstripSlash
    rw [List.reverse_reverse]
  rw [h2] at hc
  exact dropWhile_head?_not _ c hc

theorem rstripSlash_eq_self_of {l : List Char}
    (h : ∀ c, l.getLast? = some c → (c == '/') = false) : rstripSlash l = l := by
  unfold rstripSlash
  rw [dropWhile_eq_self_of_head
    (fun c hc => h c (by rwa [List.getLast?_eq_head?_reverse]))]
  exact List.reverse_reverse l

theorem rstripSlash_decomp (l : List Char) :
    ∃ m, l = rstripSlash l ++ m ∧ ∀ c ∈ m, c = '/' := by
  refine ⟨(l.reverse.takeWhile (· == '/')).reverse, ?_, ?_⟩
  · conv_lhs => rw [← List.reverse_reverse l,
      ← List.takeWhile_append_dropWhile (· == '/') l.reverse]
    rw [List.reverse_append]
    rfl
  · intro c hc
    rw [List.mem_reverse] at hc
    have h2 := List.mem_takeWhile_imp hc
    simpa using h2


/-- A URL on which a second pass of `normalize_channel_url` is the identity:
already stripped, nonempty, not handle- or scheme-less-shaped, and either
already recognised as a list URL or not channel-shaped. -/
theorem normalize_stable (t : List Char) (hstrip : pyStrip t = t) (hne : t ≠ [])
    (hA : pyStartsWith t "@".toList = false)
    (hY : pyStartsWith t "youtube.com/".toList = false)
    (hbranch : channelTags.any (fun tg => pyContains (rstripSlash (pyLower t)) tg) = true
      ∨ channelKeys.any (fun k => pyContains (rstripSlash (pyLower t)) k) = false) :
    normalize_channel_url t = t := by
  have hne' : t.isEmpty = false := by
    cases t with
    | nil => exact absurd rfl hne
    | cons a l => rfl
  have hadd : addScheme t = t := by
    simp only [addScheme]
    rw [hA, if_neg (show ¬(false = true) by simp), hY,
      if_neg (show ¬(false = true) by simp)]
  have hroute : routeUrl t = t := by
    simp only [routeUrl]
    rcases hbranch with h | h
    · rw [h, if_pos rfl]
    · by_cases htag : channelTags.any (fun tg => pyContains (rstripSlash (pyLower t)) tg)
        = true
      · rw [htag, if_pos rfl]
      · have htag2 : channelTags.any (fun tg => pyContains (rstripSlash (pyLower t)) tg)
            = false := by simpa using htag
        rw [htag2, if_neg (show ¬(false = true) by simp), h,
          if_neg (show ¬(false = true) by simp)]
  simp only [normalize_channel_url]
  rw [hstrip, hne', if_neg (show ¬(false = true) by simp), hadd, hroute]


/-- Stability of the second pass on a key-branch output
`rstripSlash u2 ++ "/videos"`. -/
theorem normalize_stable_K (u2 : List Char)
    (h2strip : pyStrip u2 = u2) (h2ne : u2 ≠ [])
    (h2A : ¬ ("@".toList <+: u2)) (h2Y : ¬ ("youtube.com/".toList <+: u2))
    (hkey : channelKeys.any (fun k => pyContains (rstripSlash (pyLower u2)) k) = true) :
    normalize_channel_url (rstripSlash u2 ++ "/videos".toList)
      = rstripSlash u2 ++ "/videos".toList := by
  have hrpre : rstripSlash u2 <+: u2 := rstripSlash_prefix u2
  have hu2head : ∀ c, u2.head? = some c → isPySpace c = false := by
    intro c hc
    exact pyStrip_head?_not u2 c (by rwa [h2strip])
  have hstrip_t : pyStrip (rstripSlash u2 ++ "/videos".toList)
      = rstripSlash u2 ++ "/videos".toList := by
    by_cases hre : rstripSlash u2 = []
    · rw [hre, List.nil_append]
      decide
    · refine pyStrip_prepend hre ?_ ?_ (by decide)
      · intro c hc
        have h3 := head?_of_prefix hrpre hre
        exact hu2head c (by rw [h3]; exact hc)
      · intro c hc
        rw [show ("/videos".toList).getLast? = some 's' from rfl] at hc
        injection hc with hc2
        rw [← hc2]
        decide
  have hne_t : rstripSlash u2 ++ "/videos".toList ≠ [] := by simp
  have hA_t : ¬ ("@".toList <+: rstripSlash u2 ++ "/videos".toList) := by
    cases hr2 : rstripSlash u2 with
    | nil =>
      rw [List.nil_append]
      exact not_prefix_cons_of_ne (by decide)
    | cons c r2 =>
      rw [List.cons_append]
      rintro ⟨t2, ht2⟩
      have ht3 : '@' :: t2 = c :: (r2 ++ "/videos".toList) := ht2
      injection ht3 with h1 _
      obtain ⟨rest, hrest⟩ := hrpre
      rw [hr2] at hrest
      refine h2A ⟨r2 ++ rest, ?_⟩
      rw [← hrest, ← h1]
      simp
  have hY_t : ¬ ("youtube.com/".toList <+: rstripSlash u2 ++ "/videos".toList) := by
    intro hpre
    rcases prefix_append_cases hpre with hc1 | ⟨w, hw, hwpre⟩
    · exact h2Y (hc1.trans hrpre)
    · have hsuf : w <:+ "youtube.com/".toList := ⟨rstripSlash u2, hw.symm⟩
      have hmem : w ∈ ("youtube.com/".toList).tails := (List.mem_tails _ _).mpr hsuf
      fin_cases hmem
      all_goals try (exact absurd hwpre (by decide))
      · -- w = ['/'] : the channel part is exactly "youtube.com"
        have hr : rstripSlash u2 = "youtube.com".toList := by
          have h12 : "youtube.com".toList ++ ['/'] = rstripSlash u2 ++ ['/'] := by
            rw [← hw]
            decide
          exact ((List.append_inj' h12 rfl).1).symm
        obtain ⟨m, hm, hms⟩ := rstripSlash_decomp u2
        cases hmm : m with
        | nil =>
          have hu2c : u2 = "youtube.com".toList := by
            rw [hm, hmm, List.append_nil, hr]
          rw [hu2c] at hkey
          exact absurd hkey (by decide)
        | cons c0 m2 =>
          have hc0 : c0 = '/' := hms c0 (by rw [hmm]; exact List.mem_cons_self c0 m2)
          refine absurd ?_ h2Y
          refine ⟨m2, ?_⟩
          rw [hm, hmm, hr, hc0]
          simp
      · -- w = [] : rstripSlash u2 would end in a slash
        have hr : rstripSlash u2 = "youtube.com/".toList := by
          rw [List.append_nil] at hw
          exact hw.symm
        have hlast := rstripSlash_getLast?_not u2 '/' (by rw [hr]; rfl)
        simp at hlast
  have hlow : rstripSlash (pyLower (rstripSlash u2 ++ "/videos".toList))
      = pyLower (rstripSlash u2) ++ "/videos".toList := by
    unfold pyLower
    rw [List.map_append]
    rw [show (("/videos".toList).map Char.toLower) = "/videos".toList from by decide]
    refine rstripSlash_eq_self_of ?_
    intro c hc
    rw [getLast?_append_right (show ("/videos".toList) ≠ [] by decide)] at hc
    rw [show ("/videos".toList).getLast? = some 's' from rfl] at hc
    injection hc with hc2
    rw [← hc2]
    decide
  have htag_t : channelTags.any
      (fun tg => pyContains
        (rstripSlash (pyLower (rstripSlash u2 ++ "/videos".toList))) tg) = true := by
    rw [List.any_eq_true]
    refine ⟨"/videos".toList, by simp [channelTags], ?_⟩
    rw [hlow, pyContains_iff]
    exact ⟨pyLower (rstripSlash u2), [], by simp⟩
  exact normalize_stable _ hstrip_t hne_t (pyStartsWith_eq_false hA_t)
    (pyStartsWith_eq_false hY_t) (Or.inl htag_t)


/-- Whatever branch the first pass takes from a scheme-fixed URL `u2`, a
second pass leaves its output unchanged. -/
theorem normalize_second_pass (s u2 : List Char)
    (hform : normalize_channel_url s = routeUrl u2)
    (h2strip : pyStrip u2 = u2) (h2ne : u2 ≠ [])
    (h2A : ¬ ("@".toList <+: u2)) (h2Y : ¬ ("youtube.com/".toList <+: u2)) :
    normalize_channel_url (normalize_channel_url s) = normalize_channel_url s := by
  rw [hform]
  simp only [routeUrl]
  by_cases htag : channelTags.any (fun tg => pyContains (rstripSlash (pyLower u2)) tg)
      = true
  · rw [htag, if_pos rfl]
    exact normalize_stable u2 h2strip h2ne (pyStartsWith_eq_false h2A)
      (pyStartsWith_eq_false h2Y) (Or.inl htag)
  · have htag2 : channelTags.any (fun tg => pyContains (rstripSlash (pyLower u2)) tg)
        = false := by simpa using htag
    rw [htag2, if_neg (show ¬(false = true) by simp)]
    by_cases hkey : channelKeys.any (fun k => pyContains (rstripSlash (pyLower u2)) k)
        = true
    · rw [hkey, if_pos rfl]
      exact normalize_stable_K u2 h2strip h2ne h2A h2Y hkey
    · have hkey2 : channelKeys.any (fun k => pyContains (rstripSlash (pyLower u2)) k)
          = false := by simpa using hkey
      rw [hkey2, if_neg (show ¬(false = true) by simp)]
      exact normalize_stable u2 h2strip h2ne (pyStartsWith_eq_false h2A)
        (pyStartsWith_eq_false h2Y) (Or.inr hkey2)

/-- C9: `normalize_channel_url` is idempotent: for every input string,
normalizing an already-normalized address returns it unchanged. -/
theorem C9_normalize_channel_url_idempotent (s : List Char) :
    normalize_channel_url (normalize_channel_url s) = normalize_channel_url s := by
  by_cases h0 : (pyStrip s).isEmpty = true
  · have hs : pyStrip s = [] := List.isEmpty_iff.mp h0
    have ht : normalize_channel_url s = [] := by
      simp only [normalize_channel_url]
      rw [hs]
      rfl
    rw [ht]
    rfl
  · have hune : pyStrip s ≠ [] := fun hh => h0 (by rw [hh]; rfl)
    have hne0 : (pyStrip s).isEmpty = false := by simpa using h0
    have hform0 : normalize_channel_url s = routeUrl (addScheme (pyStrip s)) := by
      simp only [normalize_channel_url]
      rw [hne0, if_neg (show ¬(false = true) by simp)]
    have hulast := pyStrip_getLast?_not s
    by_cases ha : pyStartsWith (pyStrip s) "@".toList = true
    · -- handle form: u2 = "https://www.youtube.com/" ++ u
      have hcons : "https://www.youtube.com/".toList ++ pyStrip s
          = 'h' :: ("ttps://www.youtube.com/".toList ++ pyStrip s) := rfl
      have hY1 : pyStartsWith ("https://www.youtube.com/".toList ++ pyStrip s)
          "youtube.com/".toList = false := by
        refine pyStartsWith_eq_false ?_
        rw [hcons]
        exact not_prefix_cons_of_ne (by decide)
      have hu1 : addScheme (pyStrip s)
          = "https://www.youtube.com/".toList ++ pyStrip s := by
        simp only [addScheme]
        rw [ha, if_pos rfl, hY1, if_neg (show ¬(false = true) by simp)]
      refine normalize_second_pass s _ (by rw [hform0, hu1]) ?_ ?_ ?_ ?_
      · refine pyStrip_prepend (by decide) ?_ hulast hune
        intro c hc
        have h2 : c = 'h' := by
          rw [show ("https://www.youtube.com/".toList).head? = some 'h' from rfl] at hc
          injection hc with h3
          exact h3.symm
        rw [h2]
        decide
      · simp
      · rw [hcons]
        exact not_prefix_cons_of_ne (by decide)
      · rw [hcons]
        exact not_prefix_cons_of_ne (by decide)
    · have ha2 : pyStartsWith (pyStrip s) "@".toList = false := by simpa using ha
      by_cases hb : pyStartsWith (pyStrip s) "youtube.com/".toList = true
      · -- scheme-less form: u2 = "https://" ++ u
        have hcons : "https://".toList ++ pyStrip s
            = 'h' :: ("ttps://".toList ++ pyStrip s) := rfl
        have hu1 : addScheme (pyStrip s) = "https://".toList ++ pyStrip s := by
          simp only [addScheme]
          rw [ha2, if_neg (show ¬(false = true) by simp), hb, if_pos rfl]
        refine normalize_second_pass s _ (by rw [hform0, hu1]) ?_ ?_ ?_ ?_
        · refine pyStrip_prepend (by decide) ?_ hulast hune
          intro c hc
          have h2 : c = 'h' := by
            rw [show ("https://".toList).head? = some 'h' from rfl] at hc
            injection hc with h3
            exact h3.symm
          rw [h2]
          decide
        · simp
        · rw [hcons]
          exact not_prefix_cons_of_ne (by decide)
        · rw [hcons]
          exact not_prefix_cons_of_ne (by decide)
      · -- unchanged: u2 = u
        have hb2 : pyStartsWith (pyStrip s) "youtube.com/".toList = false := by
          simpa using hb
        have hu1 : addScheme (pyStrip s) = pyStrip s := by
          simp only [addScheme]
          rw [ha2, if_neg (show ¬(false = true) by simp), hb2,
            if_neg (show ¬(false = true) by simp)]
        refine normalize_second_pass s _ (by rw [hform0, hu1]) (pyStrip_idem s) hune ?_ ?_
        · intro hh
          have h2 := pyStartsWith_iff.mpr hh
          rw [ha2] at h2
          exact absurd h2 (by simp)
        · intro hh
          have h2 := pyStartsWith_iff.mpr hh
          rw [hb2] at h2
          exact absurd h2 (by simp)

end YtApp
